import Mathlib

/-!
# Shallow embedding of the LMSR pricing/quote engine

This file embeds the LMSR (Logarithmic Market Scoring Rule) pricing engine of
the backend (source: `src/common/services/s3-upload.service.ts`, lines 250-660)
into Lean 4 and proves/refutes the specification claims about it.

Modelling conventions:
* JavaScript `bigint` values become `ℤ`.  JavaScript `bigint` division (`/`)
  truncates toward zero, which is `Int.tdiv`.
* JavaScript `number` arithmetic (`Math.exp`, `Math.log`, `/`, `*`) is modelled
  as exact real arithmetic over `ℝ`; `Math.round` is Mathlib's `round`
  (round-half-up, matching JavaScript's `Math.round` on halves), and
  `Math.floor` is `Int.floor`.
* The one place where the distinction between real arithmetic and IEEE-754
  matters for a claim is division by zero producing `NaN`/`±Infinity`; the
  result of such a division is modelled by the inductive type `JsNum` below,
  with `jsDiv`/`jsMul` implementing the IEEE rules for finite operands.
* The sparse distribution map (`state.distribution.get(b) || 0n`) is a total
  function `ℤ → ℤ` defaulting to 0; the `activeBuckets` working set is a
  `Finset ℤ` (the source iterates it and also dedups it through `new Set`).
* The state-reading façade functions (`getBuyQuote`, …) are `async` in the
  source only because they first fetch the `MarketState`; they are modelled as
  pure functions of an explicit `MarketState` argument, dropping the I/O step.
* The engine computations are total here: real arithmetic has no overflow, so
  the `try/catch` around cost evaluation in the solver never fires in the
  model (its catch branch is unreachable) and is omitted.
-/

open Finset

/-- Result of a JavaScript floating-point operation, distinguishing the
non-finite values that division by zero can produce. -/
inductive JsNum where
  | num (x : ℝ)
  | nan
  | posInf
  | negInf

/-- A `JsNum` is finite when it is an actual number. -/
def JsNum.isFinite : JsNum → Prop
  | JsNum.num _ => True
  | _ => False

open scoped Classical in
/-- JavaScript division `a / b` of finite doubles: division by zero yields
`Infinity`, `-Infinity` or `NaN` according to the sign of the numerator
(`Number(0n)` is `+0`, so only the numerator's sign matters here). -/
noncomputable def jsDiv (a b : ℝ) : JsNum :=
  if b ≠ 0 then JsNum.num (a / b)
  else if 0 < a then JsNum.posInf
  else if a < 0 then JsNum.negInf
  else JsNum.nan

open scoped Classical in
/-- JavaScript multiplication of a possibly non-finite value by a finite one. -/
noncomputable def jsMul (a : JsNum) (c : ℝ) : JsNum :=
  match a with
  | JsNum.num x => JsNum.num (x * c)
  | JsNum.nan => JsNum.nan
  | JsNum.posInf =>
      if 0 < c then JsNum.posInf else if c < 0 then JsNum.negInf else JsNum.nan
  | JsNum.negInf =>
      if 0 < c then JsNum.negInf else if c < 0 then JsNum.posInf else JsNum.nan

/-- In-memory market snapshot assembled by the state reader
(`getMarketState`).  `distribution b` is the share count of bucket `b`
(0 when absent from the sparse map). -/
structure MarketState where
  distribution : ℤ → ℤ
  activeBuckets : Finset ℤ
  alpha : ℤ
  balance : ℤ
  minValue : ℤ
  maxValue : ℤ
  bucketWidth : ℤ
  bucketCount : ℤ
  maxSharesPerBucket : ℤ

/-- `mapRangeToBuckets`: bucket indices are absolute (`value / bucket_width`),
computed with JavaScript `bigint` division, i.e. truncation toward zero.
`minValue` is accepted and ignored, as in the source. -/
def mapRangeToBuckets (rangeMin rangeMax bucketWidth minValue : ℤ) : ℤ × ℤ :=
  (Int.tdiv rangeMin bucketWidth, Int.tdiv (rangeMax - 1) bucketWidth)

open scoped Classical in
/-- `calculateProbability`: one pass over the active buckets accumulating
`totalSum` and, for in-range buckets, `rangeSum`; returns
`rangeSum / totalSum * 100`, or 0 when `totalSum` is not positive. -/
noncomputable def calculateProbability (state : MarketState)
    (rangeMin rangeMax : ℤ) : ℝ :=
  let se := mapRangeToBuckets rangeMin rangeMax state.bucketWidth state.minValue
  let alpha : ℝ := (state.alpha : ℝ)
  let totalSum : ℝ :=
    ∑ b ∈ state.activeBuckets, Real.exp ((state.distribution b : ℝ) / alpha)
  let rangeSum : ℝ :=
    ∑ b ∈ state.activeBuckets,
      if se.1 ≤ b ∧ b ≤ se.2 then Real.exp ((state.distribution b : ℝ) / alpha)
      else 0
  if totalSum > 0 then rangeSum / totalSum * 100 else 0

/-- `calculateCostForShares`: the same `shares` count is added to each bucket
in range; `initialSum` iterates the active buckets only, `finalSum` iterates
the union of the active buckets and the in-range buckets.
`cost = alpha * (ln finalSum - ln initialSum)`, rounded to nearest. -/
noncomputable def calculateCostForShares (state : MarketState)
    (rangeMin rangeMax shares : ℤ) : ℤ :=
  let se := mapRangeToBuckets rangeMin rangeMax state.bucketWidth state.minValue
  let alpha : ℝ := (state.alpha : ℝ)
  let initialSum : ℝ :=
    ∑ b ∈ state.activeBuckets, Real.exp ((state.distribution b : ℝ) / alpha)
  let affectedBuckets := state.activeBuckets ∪ Finset.Icc se.1 se.2
  let finalSum : ℝ :=
    ∑ b ∈ affectedBuckets,
      Real.exp
        (((if se.1 ≤ b ∧ b ≤ se.2 then state.distribution b + shares
           else state.distribution b) : ℤ) / (alpha : ℝ))
  round (alpha * (Real.log finalSum - Real.log initialSum))

/-- Formula of the specification, written from its words: `finalSum` sums
`exp` over the union of the active buckets and all buckets in
`[start, end]` after adding `shares` to every in-range bucket, and the cost
is `alpha × (ln finalSum − ln initialSum)` rounded to nearest. -/
noncomputable def specCostForShares (state : MarketState)
    (rangeMin rangeMax shares : ℤ) : ℤ :=
  let se := mapRangeToBuckets rangeMin rangeMax state.bucketWidth state.minValue
  let alpha : ℝ := (state.alpha : ℝ)
  let afterTrade : ℤ → ℤ := fun b =>
    if b ∈ Finset.Icc se.1 se.2 then state.distribution b + shares
    else state.distribution b
  let initialSum : ℝ :=
    ∑ b ∈ state.activeBuckets, Real.exp ((state.distribution b : ℝ) / alpha)
  let finalSum : ℝ :=
    ∑ b ∈ state.activeBuckets ∪ Finset.Icc se.1 se.2,
      Real.exp ((afterTrade b : ℝ) / alpha)
  round (alpha * (Real.log finalSum - Real.log initialSum))

open scoped Classical in
/-- `calculatePayoutForShares`: removes `shares` from each in-range bucket,
flooring at zero, and excludes buckets left with no shares from `finalSum`;
`payout = alpha * (ln initialSum - ln finalSum)`, rounded to nearest. -/
noncomputable def calculatePayoutForShares (state : MarketState)
    (rangeMin rangeMax shares : ℤ) : ℤ :=
  let se := mapRangeToBuckets rangeMin rangeMax state.bucketWidth state.minValue
  let alpha : ℝ := (state.alpha : ℝ)
  let initialSum : ℝ :=
    ∑ b ∈ state.activeBuckets, Real.exp ((state.distribution b : ℝ) / alpha)
  let finalSum : ℝ :=
    ∑ b ∈ state.activeBuckets,
      (let newQi : ℤ :=
        if se.1 ≤ b ∧ b ≤ se.2 then max 0 (state.distribution b - shares)
        else state.distribution b
      if 0 < newQi then Real.exp ((newQi : ℝ) / alpha) else 0)
  round (alpha * (Real.log initialSum - Real.log finalSum))

open scoped Classical in
/-- Binary-search loop of `calculateSharesForAmount` (the `for` loop with up
to 50 iterations, modelled with explicit fuel).  In the source, all three
sub-branches of the affordable case perform the same `low = mid + 1` update,
so they collapse to one branch here; the early `break` on 99% utilization
returns the midpoint directly. -/
noncomputable def solverLoop (state : MarketState)
    (rangeMin rangeMax amount : ℤ) :
    ℕ → ℤ → ℤ → ℤ → ℤ → ℤ × ℤ
  | 0, _, _, best, bestCost => (best, bestCost)
  | fuel + 1, low, high, best, bestCost =>
    if low > high then (best, bestCost)
    else
      let mid := Int.tdiv (low + high) 2
      let cost := calculateCostForShares state rangeMin rangeMax mid
      if cost ≤ amount then
        if (cost : ℝ) / (amount : ℝ) ≥ 0.99 then (mid, cost)
        else solverLoop state rangeMin rangeMax amount fuel (mid + 1) high mid cost
      else solverLoop state rangeMin rangeMax amount fuel low (mid - 1) best bestCost

open scoped Classical in
/-- Refinement loop of `calculateSharesForAmount`: linear steps
`delta = 1, 101, 201, …` up to 10000, each added to the current best and
accepted while the cost stays within budget and below the bucket cap.
101 fuel covers every possible iteration of the source's `for` loop. -/
noncomputable def refineLoop (state : MarketState)
    (rangeMin rangeMax amount maxShares : ℤ) :
    ℕ → ℤ → ℤ → ℤ → ℤ × ℤ
  | 0, _, best, bestCost => (best, bestCost)
  | fuel + 1, delta, best, bestCost =>
    if delta > 10000 then (best, bestCost)
    else
      let testShares := best + delta
      if testShares > maxShares then (best, bestCost)
      else
        let testCost := calculateCostForShares state rangeMin rangeMax testShares
        if testCost ≤ amount then
          if (testCost : ℝ) / (amount : ℝ) ≥ 0.99 then (testShares, testCost)
          else refineLoop state rangeMin rangeMax amount maxShares fuel
            (delta + 100) testShares testCost
        else (best, bestCost)

/-- The probability-weighted share estimate seeding the solver:
`BigInt(Math.floor(Number(amount) / Math.max(estimatedPrice, 0.01)))` with
`estimatedPrice = prob / 100`. -/
noncomputable def solverEstimatedShares (state : MarketState)
    (rangeMin rangeMax amount : ℤ) : ℤ :=
  Int.floor ((amount : ℝ) /
    max (calculateProbability state rangeMin rangeMax / 100) 0.01)

open scoped Classical in
/-- `calculateSharesForAmount`: seeds `[1, high]` from the probability
estimate, runs the 50-iteration binary search, then the refinement pass when
utilization lands in `[0.95, 0.99)`. -/
noncomputable def calculateSharesForAmount (state : MarketState)
    (rangeMin rangeMax amount : ℤ) : ℤ × ℤ :=
  let estimatedShares := solverEstimatedShares state rangeMin rangeMax amount
  let high : ℤ :=
    if estimatedShares < state.maxSharesPerBucket then estimatedShares * 3
    else state.maxSharesPerBucket
  let r := solverLoop state rangeMin rangeMax amount 50 1 high 0 0
  if r.1 > 0 ∧ r.2 < amount then
    if 0.95 ≤ (r.2 : ℝ) / (amount : ℝ) ∧ (r.2 : ℝ) / (amount : ℝ) < 0.99 then
      refineLoop state rangeMin rangeMax amount state.maxSharesPerBucket 101 1 r.1 r.2
    else r
  else r

/-- Buy-quote value object (shares/cost in micro-units). -/
structure BuyQuote where
  shares : ℤ
  cost : ℤ
  costUSDC : ℝ
  pricePerShare : JsNum
  probability : ℝ
  minSharesOut : ℤ

open scoped Classical in
/-- `getBuyQuote` (state already read): solves for the affordable shares,
guards the price-per-share division behind `result.shares > 0n`. -/
noncomputable def getBuyQuote (state : MarketState)
    (rangeMin rangeMax amount : ℤ) (slippagePercent : ℝ) : BuyQuote :=
  let result := calculateSharesForAmount state rangeMin rangeMax amount
  let probability := calculateProbability state rangeMin rangeMax
  let pricePerShare : JsNum :=
    if result.1 > 0 then jsDiv (result.2 : ℝ) (result.1 : ℝ) else JsNum.num 0
  let minSharesOut :=
    result.1 - Int.tdiv (result.1 * Int.floor (slippagePercent * 100)) 100
  { shares := result.1
    cost := result.2
    costUSDC := (result.2 : ℝ) / 1000000
    pricePerShare := pricePerShare
    probability := probability
    minSharesOut := minSharesOut }

/-- Sell-quote value object. -/
structure SellQuote where
  payout : ℤ
  payoutUSDC : ℝ
  pricePerShare : JsNum
  probability : ℝ
  minUsdcOut : ℤ

/-- `getSellQuote` (state already read): the price-per-share division
`Number(payout) / Number(shares)` is performed without a zero-shares guard,
exactly as in the source. -/
noncomputable def getSellQuote (state : MarketState)
    (rangeMin rangeMax shares : ℤ) (slippage : ℝ) : SellQuote :=
  let payout := calculatePayoutForShares state rangeMin rangeMax shares
  let probability := calculateProbability state rangeMin rangeMax
  { payout := payout
    payoutUSDC := (payout : ℝ) / 1000000
    pricePerShare := jsDiv (payout : ℝ) (shares : ℝ)
    probability := probability
    minUsdcOut := Int.floor ((payout : ℝ) * (1 - slippage)) }

/-- Unrealized-PnL value object. -/
structure PositionPnL where
  rangeStart : ℤ
  rangeEnd : ℤ
  shares : ℤ
  costBasis : ℤ
  currentValue : ℤ
  unrealizedPnL : ℤ
  unrealizedPnLPercent : JsNum
  probability : ℝ

/-- `calculatePositionPnL` (state already read): zero-slippage sell quote;
the percentage divides by `costBasis` without a zero guard. -/
noncomputable def calculatePositionPnL (state : MarketState)
    (rangeStart rangeEnd shares costBasis : ℤ) : PositionPnL :=
  let sellQuote := getSellQuote state rangeStart rangeEnd shares 0
  let unrealizedPnL := sellQuote.payout - costBasis
  { rangeStart := rangeStart
    rangeEnd := rangeEnd
    shares := shares
    costBasis := costBasis
    currentValue := sellQuote.payout
    unrealizedPnL := unrealizedPnL
    unrealizedPnLPercent := jsMul (jsDiv (unrealizedPnL : ℝ) (costBasis : ℝ)) 100
    probability := sellQuote.probability }

/-- Trade direction of a history entry. -/
inductive TradeType where
  | buy
  | sell
deriving DecidableEq

/-- Trade-history entry (amount in micro-units). -/
structure Trade where
  type : TradeType
  amount : ℤ

/-- Result record of `calculateRealizedPnL`. -/
structure RealizedPnL where
  totalBought : ℤ
  totalSold : ℤ
  realizedPnL : ℤ
  realizedPnLPercent : ℝ

open scoped Classical in
/-- `calculateRealizedPnL`: folds the trade list into buy/sell totals; the
percentage division is guarded behind `totalBought > 0n`. -/
noncomputable def calculateRealizedPnL (trades : List Trade) : RealizedPnL :=
  let totals :=
    trades.foldl (fun acc t =>
      match t.type with
      | TradeType.buy => (acc.1 + t.amount, acc.2)
      | TradeType.sell => (acc.1, acc.2 + t.amount)) ((0 : ℤ), (0 : ℤ))
  let realizedPnL := totals.2 - totals.1
  { totalBought := totals.1
    totalSold := totals.2
    realizedPnL := realizedPnL
    realizedPnLPercent :=
      if totals.1 > 0 then (realizedPnL : ℝ) / (totals.1 : ℝ) * 100 else 0 }

/-! ## Concrete market states used in witnesses and counterexamples -/

/-- Witness market: one active bucket (index 5) holding 1,000,000
micro-shares, `alpha = 1,000,000`, buckets of width 100 over `[0, 1000]`. -/
def wState : MarketState where
  distribution := fun b => if b = 5 then 1000000 else 0
  activeBuckets := {5}
  alpha := 1000000
  balance := 0
  minValue := 0
  maxValue := 1000
  bucketWidth := 100
  bucketCount := 11
  maxSharesPerBucket := 1000000

/-- Market with no active buckets. -/
def emptyState : MarketState where
  distribution := fun _ => 0
  activeBuckets := ∅
  alpha := 1000000
  balance := 0
  minValue := 0
  maxValue := 1000
  bucketWidth := 100
  bucketCount := 11
  maxSharesPerBucket := 1000000

/-- Scenario market of the spec: single active bucket 5 holding `q = 0`. -/
def c9State : MarketState where
  distribution := fun _ => 0
  activeBuckets := {5}
  alpha := 1000000
  balance := 0
  minValue := 0
  maxValue := 1000
  bucketWidth := 100
  bucketCount := 11
  maxSharesPerBucket := 1000000

/-- Counterexample market for the round-trip claim: active bucket 0 holds no
shares, active bucket 1 holds a single micro-share. -/
def roundTripCexState : MarketState where
  distribution := fun b => if b = 1 then 1 else 0
  activeBuckets := {0, 1}
  alpha := 1000000
  balance := 0
  minValue := 0
  maxValue := 200
  bucketWidth := 100
  bucketCount := 3
  maxSharesPerBucket := 1000000

/-- Witness market for the amended round-trip theorem: bucket 0 holds
3,000,000 micro-shares, bucket 1 holds 1,000,000. -/
def roundTripWState : MarketState where
  distribution := fun b => if b = 0 then 3000000 else if b = 1 then 1000000 else 0
  activeBuckets := {0, 1}
  alpha := 1000000
  balance := 0
  minValue := 0
  maxValue := 200
  bucketWidth := 100
  bucketCount := 3
  maxSharesPerBucket := 10000000

/-- Counterexample market for the solver-cap claim: `alpha = 100`, active
bucket 20 holds 2000 micro-shares, and `maxSharesPerBucket = 150`. -/
def capCexState : MarketState where
  distribution := fun b => if b = 20 then 2000 else 0
  activeBuckets := {20}
  alpha := 100
  balance := 0
  minValue := 0
  maxValue := 10000
  bucketWidth := 100
  bucketCount := 101
  maxSharesPerBucket := 150

/-! ## General helper lemmas -/

/-- `round` is monotone (JavaScript's `Math.round` and Mathlib's `round`
both round half toward positive infinity). -/
theorem lmsrRoundMono {x y : ℝ} (h : x ≤ y) : round x ≤ round y := by
  rw [round_eq, round_eq]
  exact Int.floor_mono (by linarith)

/-- A real gap of at least 1 forces a strict gap between the rounded values. -/
theorem lmsrRoundLt {x y : ℝ} (h : x + 1 ≤ y) : round x < round y := by
  have h1 : round (x + ((1 : ℤ) : ℝ)) ≤ round y := by
    apply lmsrRoundMono
    push_cast
    linarith
  rw [round_add_int] at h1
  omega

/-! ## Solver loop lemmas -/

/-- The binary-search loop returns its accumulated best as soon as the
window is empty. -/
theorem solverLoop_stop (state : MarketState) (a b amount : ℤ) (fuel : ℕ)
    (low high best bestCost : ℤ) (h : low > high) :
    solverLoop state a b amount fuel low high best bestCost = (best, bestCost) := by
  cases fuel with
  | zero => rfl
  | succ n => simp [solverLoop, h]

/-- The binary-search loop only ever records affordable costs. -/
theorem solverLoop_cost_le (state : MarketState) (a b amount : ℤ) :
    ∀ (fuel : ℕ) (low high best bestCost : ℤ), bestCost ≤ amount →
      (solverLoop state a b amount fuel low high best bestCost).2 ≤ amount := by
  intro fuel
  induction fuel with
  | zero => intro _ _ _ _ h; exact h
  | succ n ih =>
    intro low high best bestCost h
    simp only [solverLoop]
    split_ifs with h1 h2 h3
    · exact h
    · exact h2
    · exact ih _ _ _ _ h2
    · exact ih _ _ _ _ h

/-- The refinement loop only ever records affordable costs. -/
theorem refineLoop_cost_le (state : MarketState) (a b amount maxShares : ℤ) :
    ∀ (fuel : ℕ) (delta best bestCost : ℤ), bestCost ≤ amount →
      (refineLoop state a b amount maxShares fuel delta best bestCost).2 ≤ amount := by
  intro fuel
  induction fuel with
  | zero => intro _ _ _ h; exact h
  | succ n ih =>
    intro delta best bestCost h
    simp only [refineLoop]
    split_ifs with h1 h2 h3 h4
    · exact h
    · exact h
    · exact h3
    · exact ih _ _ _ h3
    · exact h

/-- The binary-search loop keeps its returned share count below any bound
dominating both the current best and the upper end of the window. -/
theorem solverLoop_shares_le (state : MarketState) (a b amount M : ℤ) :
    ∀ (fuel : ℕ) (low high best bestCost : ℤ),
      0 ≤ low → best ≤ M → high ≤ M →
      (solverLoop state a b amount fuel low high best bestCost).1 ≤ M := by
  intro fuel
  induction fuel with
  | zero => intro _ _ _ _ _ h2 _; exact h2
  | succ n ih =>
    intro low high best bestCost hlow hbest hhigh
    by_cases hlh : low > high
    · rw [solverLoop_stop _ _ _ _ _ _ _ _ _ hlh]; exact hbest
    · have hdiv : Int.tdiv (low + high) 2 = (low + high) / 2 :=
        Int.tdiv_eq_ediv (by omega) (by omega)
      have hmid : Int.tdiv (low + high) 2 ≤ high := by rw [hdiv]; omega
      have hmid0 : 0 ≤ Int.tdiv (low + high) 2 := by rw [hdiv]; omega
      simp only [solverLoop]
      rw [if_neg hlh]
      split_ifs with h2 h3
      · exact le_trans hmid hhigh
      · exact ih _ _ _ _ (by omega) (le_trans hmid hhigh) hhigh
      · exact ih _ _ _ _ hlow hbest (by omega)

/-- The refinement loop never pushes the share count above
`max` of the incoming best and the bucket cap. -/
theorem refineLoop_shares_le (state : MarketState) (a b amount maxShares M : ℤ)
    (hms : maxShares ≤ M) :
    ∀ (fuel : ℕ) (delta best bestCost : ℤ), best ≤ M →
      (refineLoop state a b amount maxShares fuel delta best bestCost).1 ≤ M := by
  intro fuel
  induction fuel with
  | zero => intro _ _ _ h; exact h
  | succ n ih =>
    intro delta best bestCost h
    simp only [refineLoop]
    split_ifs with h1 h2 h3 h4
    · exact h
    · exact h
    · omega
    · exact ih _ _ _ (by omega)
    · exact h

/-- If every positive share count in the window costs nothing, the
binary search walks all the way up to the window's upper end.  The fuel
must dominate the binary logarithm of the window size. -/
theorem solverLoop_all_zero_cost (state : MarketState) (a b amount H : ℤ)
    (hamount : 1 ≤ amount)
    (hcost : ∀ n : ℤ, 1 ≤ n → n ≤ H → calculateCostForShares state a b n = 0) :
    ∀ (fuel : ℕ) (low high best bestCost : ℤ),
      1 ≤ low → low ≤ high → high ≤ H → high - low ≤ 2 ^ fuel - 2 →
      solverLoop state a b amount fuel low high best bestCost = (high, 0) := by
  intro fuel
  induction fuel with
  | zero =>
    intro low high best bestCost h1 h2 h3 h4
    exfalso
    norm_num at h4
    omega
  | succ n ih =>
    intro low high best bestCost h1 h2 h3 h4
    have hne : ¬ low > high := by omega
    have hdiv : Int.tdiv (low + high) 2 = (low + high) / 2 :=
      Int.tdiv_eq_ediv (by omega) (by omega)
    have hmid1 : 1 ≤ Int.tdiv (low + high) 2 := by rw [hdiv]; omega
    have hmidh : Int.tdiv (low + high) 2 ≤ high := by rw [hdiv]; omega
    have hc : calculateCostForShares state a b (Int.tdiv (low + high) 2) = 0 :=
      hcost _ hmid1 (le_trans hmidh h3)
    have hutil : ¬ (((0 : ℤ) : ℝ) / (amount : ℝ) ≥ 0.99) := by
      push_cast
      rw [zero_div]
      norm_num
    simp only [solverLoop]
    rw [if_neg hne, hc, if_pos (by omega : (0 : ℤ) ≤ amount), if_neg hutil]
    by_cases hmh : Int.tdiv (low + high) 2 = high
    · rw [hmh]
      exact solverLoop_stop _ _ _ _ _ _ _ _ _ (by omega)
    · have hlt : Int.tdiv (low + high) 2 < high := lt_of_le_of_ne hmidh hmh
      apply ih
      · omega
      · omega
      · exact h3
      · rw [pow_succ] at h4
        have hk : (0 : ℤ) < 2 ^ n := by positivity
        rw [hdiv] at hlt hmid1 ⊢
        generalize hgen : (2 : ℤ) ^ n = k at h4 hk ⊢
        omega

/-- With a zero budget the probability-weighted share estimate is zero. -/
theorem solverEstimatedShares_zero (state : MarketState) (a b : ℤ) :
    solverEstimatedShares state a b 0 = 0 := by
  unfold solverEstimatedShares
  norm_num

/-- With a zero budget the solver's window is empty and it returns
`{shares := 0, cost := 0}`. -/
theorem sharesForAmount_zero_amount (state : MarketState) (a b : ℤ) :
    calculateSharesForAmount state a b 0 = (0, 0) := by
  have key : ∀ high : ℤ, high ≤ 0 →
      solverLoop state a b 0 50 1 high 0 0 = (0, 0) := fun high hh =>
    solverLoop_stop _ _ _ _ _ _ _ _ _ (by omega)
  simp only [calculateSharesForAmount, solverEstimatedShares_zero]
  by_cases hm : (0 : ℤ) < state.maxSharesPerBucket
  · rw [if_pos hm, show (0 : ℤ) * 3 = 0 by ring, key 0 le_rfl]
    norm_num
  · rw [if_neg hm, key state.maxSharesPerBucket (by omega)]
    norm_num

/-- The full solver never returns a cost above the budget. -/
theorem sharesForAmount_cost_le (state : MarketState) (a b amount : ℤ)
    (h : 0 ≤ amount) :
    (calculateSharesForAmount state a b amount).2 ≤ amount := by
  simp only [calculateSharesForAmount]
  split_ifs <;>
    first
      | exact refineLoop_cost_le _ _ _ _ _ _ _ _ _
          (solverLoop_cost_le _ _ _ _ _ _ _ _ _ h)
      | exact solverLoop_cost_le _ _ _ _ _ _ _ _ _ h

/-- If no positive share count is affordable, the binary search never
records a candidate. -/
theorem solverLoop_unaffordable (state : MarketState) (a b amount : ℤ)
    (h : ∀ n : ℤ, 1 ≤ n → amount < calculateCostForShares state a b n) :
    ∀ (fuel : ℕ) (low high : ℤ), 1 ≤ low →
      solverLoop state a b amount fuel low high 0 0 = (0, 0) := by
  intro fuel
  induction fuel with
  | zero => intro _ _ _; rfl
  | succ n ih =>
    intro low high hlow
    by_cases hlh : low > high
    · exact solverLoop_stop _ _ _ _ _ _ _ _ _ hlh
    · have hdiv : Int.tdiv (low + high) 2 = (low + high) / 2 :=
        Int.tdiv_eq_ediv (by omega) (by omega)
      have hmid : 1 ≤ Int.tdiv (low + high) 2 := by rw [hdiv]; omega
      have hc := h _ hmid
      simp only [solverLoop]
      rw [if_neg hlh, if_neg (not_le.mpr hc)]
      exact ih _ _ hlow

/-- If no positive share count is affordable, the solver returns
`{shares := 0, cost := 0}`. -/
theorem sharesForAmount_unaffordable (state : MarketState) (a b amount : ℤ)
    (h : ∀ n : ℤ, 1 ≤ n → amount < calculateCostForShares state a b n) :
    calculateSharesForAmount state a b amount = (0, 0) := by
  simp only [calculateSharesForAmount]
  rw [solverLoop_unaffordable state a b amount h 50 1 _ le_rfl]
  norm_num

/-! ## C3: solver budget respect -/

/-- C3: for every market state, range and budget `amount ≥ 0`, the quote
solver returns a pair whose cost never exceeds the budget; a zero budget
yields zero shares; and when no positive share count is affordable it
returns `{shares := 0, cost := 0}`. -/
theorem solver_budget_respected (state : MarketState) (a b amount : ℤ)
    (h : 0 ≤ amount) :
    (calculateSharesForAmount state a b amount).2 ≤ amount ∧
    (amount = 0 → (calculateSharesForAmount state a b amount).1 = 0) ∧
    ((∀ n : ℤ, 1 ≤ n → amount < calculateCostForShares state a b n) →
      calculateSharesForAmount state a b amount = (0, 0)) := by
  refine ⟨sharesForAmount_cost_le state a b amount h, ?_,
    sharesForAmount_unaffordable state a b amount⟩
  intro h0
  subst h0
  rw [sharesForAmount_zero_amount]

/-- Witness for `solver_budget_respected`: concrete market, zero budget. -/
theorem solver_budget_respected_witness :
    (calculateSharesForAmount wState 500 600 0).2 ≤ 0 ∧
    (calculateSharesForAmount wState 500 600 0).1 = 0 :=
  ⟨(solver_budget_respected wState 500 600 0 le_rfl).1,
   (solver_budget_respected wState 500 600 0 le_rfl).2.1 rfl⟩

/-! ## C7: range-to-bucket mapping -/

/-- C7 counterexample: at `rangeMin = -150`, `rangeMax = -50`,
`bucketWidth = 100` the code returns start bucket `-1` (bigint division
truncates toward zero), not `floor(-150 / 100) = -2` as the claim states. -/
theorem mapRange_floor_counterexample :
    (mapRangeToBuckets (-150) (-50) 100 0).1 ≠ Int.fdiv (-150) 100 := by decide

/-- C7 (amended): `mapRangeToBuckets` returns the quotients truncated toward
zero, `trunc(rangeMin / bucketWidth)` and `trunc((rangeMax - 1) /
bucketWidth)`; these coincide with the claimed floor-division values whenever
the range bounds are non-negative; and the claim's concrete example
`rangeMin = 100, rangeMax = 200, bucketWidth = 100 ↦ {start 1, end 1}`
holds.  The function is pure and deterministic by construction. -/
theorem mapRange_trunc (rangeMin rangeMax bucketWidth minValue : ℤ)
    (hw : 0 < bucketWidth) :
    mapRangeToBuckets rangeMin rangeMax bucketWidth minValue =
      (Int.tdiv rangeMin bucketWidth, Int.tdiv (rangeMax - 1) bucketWidth) ∧
    (0 ≤ rangeMin →
      (mapRangeToBuckets rangeMin rangeMax bucketWidth minValue).1 =
        Int.fdiv rangeMin bucketWidth) ∧
    (1 ≤ rangeMax →
      (mapRangeToBuckets rangeMin rangeMax bucketWidth minValue).2 =
        Int.fdiv (rangeMax - 1) bucketWidth) ∧
    mapRangeToBuckets 100 200 100 minValue = (1, 1) := by
  refine ⟨rfl, ?_, ?_, rfl⟩
  · intro hmin
    show Int.tdiv rangeMin bucketWidth = Int.fdiv rangeMin bucketWidth
    rw [Int.tdiv_eq_ediv hmin (by omega), Int.fdiv_eq_ediv _ (by omega)]
  · intro hmax
    show Int.tdiv (rangeMax - 1) bucketWidth = Int.fdiv (rangeMax - 1) bucketWidth
    rw [Int.tdiv_eq_ediv (by omega) (by omega),
      Int.fdiv_eq_ediv _ (by omega)]

/-- Witness for `mapRange_trunc` at the claim's concrete example. -/
theorem mapRange_trunc_witness : mapRangeToBuckets 100 200 100 0 = (1, 1) :=
  (mapRange_trunc 100 200 100 0 (by norm_num)).2.2.2

/-! ## C8: solver share-count bound -/

/-- C8 (amended): the solver's initial upper bound is `3 × estimate`
whenever the probability-weighted estimate is below `maxSharesPerBucket`
(the cap applies only in the other branch), so the returned share count is
bounded only by the larger of `3 × estimate` and `maxSharesPerBucket`
(never negative), not by `maxSharesPerBucket` itself. -/
theorem solver_shares_bounded (state : MarketState) (a b amount : ℤ) :
    (calculateSharesForAmount state a b amount).1 ≤
      max (max (3 * solverEstimatedShares state a b amount)
        state.maxSharesPerBucket) 0 := by
  simp only [calculateSharesForAmount]
  set M := max (max (3 * solverEstimatedShares state a b amount)
    state.maxSharesPerBucket) 0 with hMdef
  have h3est : 3 * solverEstimatedShares state a b amount ≤ M :=
    le_trans (le_max_left _ _) (le_max_left _ _)
  have hMs : state.maxSharesPerBucket ≤ M :=
    le_trans (le_max_right _ _) (le_max_left _ _)
  have hM0 : (0 : ℤ) ≤ M := le_max_right _ _
  have key : ∀ X : ℤ, X ≤ M → (solverLoop state a b amount 50 1 X 0 0).1 ≤ M :=
    fun X hX => solverLoop_shares_le state a b amount M 50 1 X 0 0 (by omega) hM0 hX
  by_cases hc : solverEstimatedShares state a b amount < state.maxSharesPerBucket
  · rw [if_pos hc]
    have hX : solverEstimatedShares state a b amount * 3 ≤ M := by linarith
    split_ifs with h1 h2
    · exact refineLoop_shares_le state a b amount _ M hMs 101 _ _ _ (key _ hX)
    · exact key _ hX
    · exact key _ hX
  · rw [if_neg hc]
    split_ifs with h1 h2
    · exact refineLoop_shares_le state a b amount _ M hMs 101 _ _ _ (key _ hMs)
    · exact key _ hMs
    · exact key _ hMs

/-! ## Probability lemmas -/

/-- When every active bucket lies inside the mapped window, the range sum
equals the total sum and the probability is exactly 100. -/
theorem calculateProbability_eq_100 (state : MarketState) (a b : ℤ)
    (hne : state.activeBuckets.Nonempty)
    (hall : ∀ bk ∈ state.activeBuckets,
      (mapRangeToBuckets a b state.bucketWidth state.minValue).1 ≤ bk ∧
      bk ≤ (mapRangeToBuckets a b state.bucketWidth state.minValue).2) :
    calculateProbability state a b = 100 := by
  simp only [calculateProbability]
  have htot : 0 < ∑ bk ∈ state.activeBuckets,
      Real.exp ((state.distribution bk : ℝ) / (state.alpha : ℝ)) :=
    Finset.sum_pos (fun bk _ => Real.exp_pos _) hne
  have hrange : (∑ bk ∈ state.activeBuckets,
      if (mapRangeToBuckets a b state.bucketWidth state.minValue).1 ≤ bk ∧
          bk ≤ (mapRangeToBuckets a b state.bucketWidth state.minValue).2 then
        Real.exp ((state.distribution bk : ℝ) / (state.alpha : ℝ)) else 0) =
      ∑ bk ∈ state.activeBuckets,
        Real.exp ((state.distribution bk : ℝ) / (state.alpha : ℝ)) :=
    Finset.sum_congr rfl fun bk hbk => if_pos (hall bk hbk)
  rw [hrange, if_pos htot, div_self (ne_of_gt htot), one_mul]

/-- When no active bucket lies inside the mapped window (in particular when
there is no active bucket at all), the probability is 0. -/
theorem calculateProbability_eq_zero (state : MarketState) (a b : ℤ)
    (hnone : ∀ bk ∈ state.activeBuckets,
      ¬((mapRangeToBuckets a b state.bucketWidth state.minValue).1 ≤ bk ∧
        bk ≤ (mapRangeToBuckets a b state.bucketWidth state.minValue).2)) :
    calculateProbability state a b = 0 := by
  simp only [calculateProbability]
  have hrange : (∑ bk ∈ state.activeBuckets,
      if (mapRangeToBuckets a b state.bucketWidth state.minValue).1 ≤ bk ∧
          bk ≤ (mapRangeToBuckets a b state.bucketWidth state.minValue).2 then
        Real.exp ((state.distribution bk : ℝ) / (state.alpha : ℝ)) else 0) = 0 :=
    Finset.sum_eq_zero fun bk hbk => if_neg (hnone bk hbk)
  rw [hrange]
  split_ifs with h
  · rw [zero_div, zero_mul]
  · rfl

/-! ## C2: probability normalization -/

/-- C2: a market with at least one active bucket (all of them lying inside
the market's full bucket window, as the data-model invariants require) has
probability exactly 100 over the full `[minValue, maxValue]` range; a range
containing no active bucket has probability 0; a market with no active
buckets has probability 0 for any range. -/
theorem probability_normalized (state : MarketState) (rangeMin rangeMax : ℤ) :
    (state.activeBuckets.Nonempty →
      (∀ bk ∈ state.activeBuckets,
        (mapRangeToBuckets state.minValue state.maxValue state.bucketWidth
          state.minValue).1 ≤ bk ∧
        bk ≤ (mapRangeToBuckets state.minValue state.maxValue state.bucketWidth
          state.minValue).2) →
      calculateProbability state state.minValue state.maxValue = 100) ∧
    ((∀ bk ∈ state.activeBuckets,
        ¬((mapRangeToBuckets rangeMin rangeMax state.bucketWidth
            state.minValue).1 ≤ bk ∧
          bk ≤ (mapRangeToBuckets rangeMin rangeMax state.bucketWidth
            state.minValue).2)) →
      calculateProbability state rangeMin rangeMax = 0) ∧
    (state.activeBuckets = ∅ → calculateProbability state rangeMin rangeMax = 0) := by
  refine ⟨fun hne hall => calculateProbability_eq_100 _ _ _ hne hall,
    fun hnone => calculateProbability_eq_zero _ _ _ hnone,
    fun hemp => calculateProbability_eq_zero _ _ _ fun bk hbk => ?_⟩
  rw [hemp] at hbk
  exact absurd hbk (Finset.not_mem_empty bk)

/-- Witness for `probability_normalized` on concrete markets. -/
theorem probability_normalized_witness :
    calculateProbability wState 0 1000 = 100 ∧
    calculateProbability wState 700 800 = 0 ∧
    calculateProbability emptyState 0 100 = 0 :=
  ⟨(probability_normalized wState 0 100).1 (by decide) (by decide),
   (probability_normalized wState 700 800).2.1 (by decide),
   (probability_normalized emptyState 0 100).2.2 rfl⟩

/-! ## C1: the buy-cost formula -/

/-- C1: for any state, range and share count `n ≥ 1`, the implemented buy
cost adds the same `n` shares to each bucket of the window (not divided
among them) and equals `round(alpha * (ln finalSum - ln initialSum))` with
`finalSum` ranging over the union of the active and the in-range buckets,
exactly as the specification formula states. -/
theorem buy_cost_matches_formula (state : MarketState) (a b n : ℤ)
    (hn : 1 ≤ n) :
    calculateCostForShares state a b n = specCostForShares state a b n := by
  simp only [calculateCostForShares, specCostForShares, Finset.mem_Icc]

/-- Witness for `buy_cost_matches_formula` at a concrete input. -/
theorem buy_cost_matches_formula_witness :
    (1 : ℤ) ≤ 1 ∧
    calculateCostForShares wState 500 600 1 = specCostForShares wState 500 600 1 :=
  ⟨le_rfl, buy_cost_matches_formula wState 500 600 1 le_rfl⟩

/-! ## Cost evaluation lemmas -/

/-- Buying into an empty bucket window (start past end) touches no bucket,
so the cost is zero for every share count. -/
theorem cost_empty_range (state : MarketState) (a b n : ℤ)
    (h : (mapRangeToBuckets a b state.bucketWidth state.minValue).2 <
      (mapRangeToBuckets a b state.bucketWidth state.minValue).1) :
    calculateCostForShares state a b n = 0 := by
  simp only [calculateCostForShares]
  have hicc : Finset.Icc
      (mapRangeToBuckets a b state.bucketWidth state.minValue).1
      (mapRangeToBuckets a b state.bucketWidth state.minValue).2 = ∅ :=
    Finset.Icc_eq_empty (by omega)
  rw [hicc, Finset.union_empty]
  have hfin : (∑ bk ∈ state.activeBuckets,
      Real.exp
        (((if (mapRangeToBuckets a b state.bucketWidth state.minValue).1 ≤ bk ∧
            bk ≤ (mapRangeToBuckets a b state.bucketWidth state.minValue).2 then
          state.distribution bk + n else state.distribution bk) : ℤ) /
          (state.alpha : ℝ))) =
      ∑ bk ∈ state.activeBuckets,
        Real.exp ((state.distribution bk : ℝ) / (state.alpha : ℝ)) :=
    Finset.sum_congr rfl fun bk _ =>
      by rw [if_neg fun hc => absurd (le_trans hc.1 hc.2) (not_le.mpr h)]
  rw [hfin, sub_self, mul_zero, round_zero]

/-- With probability 0 and budget 1 the solver's estimate is
`floor(1 / 0.01) = 100`. -/
theorem est_amount_one_prob_zero (state : MarketState) (a b : ℤ)
    (hp : calculateProbability state a b = 0) :
    solverEstimatedShares state a b 1 = 100 := by
  unfold solverEstimatedShares
  rw [hp]
  push_cast
  rw [zero_div, max_eq_right (by norm_num : (0 : ℝ) ≤ 0.01),
    show (1 : ℝ) / (0.01 : ℝ) = ((100 : ℤ) : ℝ) by norm_num, Int.floor_intCast]

/-! ## C6: no input validation on quote operations -/

/-- The solver on `wState` with the inverted range `[200, 100)` and budget 1
climbs to the top of its window and returns 300 shares at cost 0. -/
theorem invertedRange_solver_eval :
    calculateSharesForAmount wState 200 100 1 = (300, 0) := by
  have hzero : ∀ n : ℤ, 1 ≤ n → n ≤ 300 →
      calculateCostForShares wState 200 100 n = 0 := fun n _ _ =>
    cost_empty_range wState 200 100 n (by decide)
  simp only [calculateSharesForAmount]
  rw [est_amount_one_prob_zero wState 200 100
    (calculateProbability_eq_zero wState 200 100 (by decide))]
  rw [if_pos (by decide : (100 : ℤ) < wState.maxSharesPerBucket),
    show (100 : ℤ) * 3 = 300 by norm_num]
  rw [solverLoop_all_zero_cost wState 200 100 1 300 le_rfl hzero 50 1 300 0 0
    le_rfl (by norm_num) le_rfl (by norm_num)]
  norm_num

/-- C6: the quote operations perform no input validation: a buy quote with
the invalid range `rangeMin = 200 > rangeMax = 100` and budget 1 still runs
against the freshly read state and produces a quote — 300 shares at cost 0 —
rather than failing fast with an InvalidInput error. -/
theorem invalid_input_not_rejected :
    (getBuyQuote wState 200 100 1 (1 / 20)).shares = 300 ∧
    (getBuyQuote wState 200 100 1 (1 / 20)).cost = 0 := by
  constructor
  · show (calculateSharesForAmount wState 200 100 1).1 = 300
    rw [invertedRange_solver_eval]
  · show (calculateSharesForAmount wState 200 100 1).2 = 0
    rw [invertedRange_solver_eval]

/-- A buy window carrying a vanishing share of the probability mass has a
real-valued cost in `[0, 1/2)`, so the rounded cost is zero. -/
theorem round_cost_tiny (x : ℝ) (hx1 : 0 ≤ x) (hx2 : x ≤ 3) :
    round ((100 : ℝ) * (Real.log (Real.exp 20 + Real.exp x) -
      Real.log (Real.exp 20))) = 0 := by
  have hI : (0 : ℝ) < Real.exp 20 := Real.exp_pos _
  have hx : (0 : ℝ) < Real.exp x := Real.exp_pos _
  have hF : (0 : ℝ) < Real.exp 20 + Real.exp x := by linarith
  have hmono : Real.log (Real.exp 20) ≤ Real.log (Real.exp 20 + Real.exp x) :=
    Real.log_le_log hI (by linarith)
  have hdiff : Real.log (Real.exp 20 + Real.exp x) - Real.log (Real.exp 20) =
      Real.log ((Real.exp 20 + Real.exp x) / Real.exp 20) :=
    (Real.log_div (ne_of_gt hF) (ne_of_gt hI)).symm
  have hsub : Real.log ((Real.exp 20 + Real.exp x) / Real.exp 20) ≤
      (Real.exp 20 + Real.exp x) / Real.exp 20 - 1 :=
    Real.log_le_sub_one_of_pos (by positivity)
  have hquot : (Real.exp 20 + Real.exp x) / Real.exp 20 - 1 =
      Real.exp x / Real.exp 20 := by field_simp
  have hexp : Real.exp x / Real.exp 20 = Real.exp (x - 20) :=
    (Real.exp_sub x 20).symm
  have hb : Real.exp (x - 20) ≤ Real.exp (-17) :=
    Real.exp_le_exp.mpr (by linarith)
  have h2e : (2 : ℝ) ≤ Real.exp 1 := by linarith [Real.add_one_le_exp 1]
  have hpow : (131072 : ℝ) ≤ Real.exp 17 := by
    have hp : (2 : ℝ) ^ (17 : ℕ) ≤ Real.exp 1 ^ (17 : ℕ) :=
      pow_le_pow_left (by norm_num) h2e 17
    have he : Real.exp 1 ^ (17 : ℕ) = Real.exp 17 := by
      rw [← Real.exp_nat_mul]
      norm_num
    rw [he] at hp
    norm_num at hp
    linarith
  have hsmall : Real.exp (-17) ≤ 1 / 250 := by
    rw [Real.exp_neg, inv_eq_one_div]
    exact one_div_le_one_div_of_le (by norm_num) (by linarith)
  have hup : Real.log (Real.exp 20 + Real.exp x) - Real.log (Real.exp 20) ≤
      1 / 250 := by
    rw [hdiff]
    calc Real.log ((Real.exp 20 + Real.exp x) / Real.exp 20)
        ≤ (Real.exp 20 + Real.exp x) / Real.exp 20 - 1 := hsub
      _ = Real.exp x / Real.exp 20 := hquot
      _ = Real.exp (x - 20) := hexp
      _ ≤ Real.exp (-17) := hb
      _ ≤ 1 / 250 := hsmall
  rw [round_eq_zero_iff, Set.mem_Ico]
  constructor
  · linarith
  · linarith

/-- In the solver-cap counterexample market, every share count up to 300
bought into window `[300, 400)` costs zero: the active probability mass sits
in bucket 20, dwarfing the `exp(n/100)` contribution of bucket 3. -/
theorem capCex_cost_zero (n : ℤ) (h1 : 1 ≤ n) (h2 : n ≤ 300) :
    calculateCostForShares capCexState 300 400 n = 0 := by
  have hse1 : (mapRangeToBuckets 300 400 capCexState.bucketWidth
      capCexState.minValue).1 = 3 := by decide
  have hse2 : (mapRangeToBuckets 300 400 capCexState.bucketWidth
      capCexState.minValue).2 = 3 := by decide
  have hab : capCexState.activeBuckets = ({20} : Finset ℤ) := rfl
  have hd : capCexState.distribution = fun bk => if bk = 20 then 2000 else 0 := rfl
  have ha : capCexState.alpha = 100 := rfl
  have hu : ({20} : Finset ℤ) ∪ Finset.Icc 3 3 = ({20, 3} : Finset ℤ) := by decide
  have hx1 : (0 : ℝ) ≤ (n : ℝ) / 100 := by
    have : (1 : ℝ) ≤ (n : ℝ) := by exact_mod_cast h1
    linarith
  have hx2 : (n : ℝ) / 100 ≤ 3 := by
    have : (n : ℝ) ≤ 300 := by exact_mod_cast h2
    linarith
  simp only [calculateCostForShares, hse1, hse2, hab, hd, ha]
  rw [hu, Finset.sum_pair (by norm_num : (20 : ℤ) ≠ 3), Finset.sum_singleton]
  norm_num
  have h := round_cost_tiny ((n : ℝ) / 100) hx1 hx2
  rw [round_eq_zero_iff, Set.mem_Ico, Real.log_exp] at h
  exact h

/-- C8 counterexample: on `capCexState` with budget 1 the probability-weighted
estimate is 100, below the cap of 150, so the search window's upper bound is
`3 × 100 = 300` rather than the cap, and the solver returns 300 shares —
strictly more than `maxSharesPerBucket = 150`. -/
theorem solver_cap_counterexample :
    capCexState.maxSharesPerBucket <
      (calculateSharesForAmount capCexState 300 400 1).1 := by
  have hsol : calculateSharesForAmount capCexState 300 400 1 = (300, 0) := by
    simp only [calculateSharesForAmount]
    rw [est_amount_one_prob_zero capCexState 300 400
      (calculateProbability_eq_zero capCexState 300 400 (by decide))]
    rw [if_pos (by decide : (100 : ℤ) < capCexState.maxSharesPerBucket),
      show (100 : ℤ) * 3 = 300 by norm_num]
    rw [solverLoop_all_zero_cost capCexState 300 400 1 300 le_rfl
      (fun n h1 h2 => capCex_cost_zero n h1 h2) 50 1 300 0 0 le_rfl (by norm_num)
      le_rfl (by norm_num)]
    norm_num
  rw [hsol]
  decide

/-! ## C9: the spec's concrete pricing scenario -/

/-- Cost evaluation of the spec's scenario: buying 100,000 shares of bucket 5
in `c9State` costs exactly 100,000 micro-units. -/
theorem c9_cost_eval : calculateCostForShares c9State 500 600 100000 = 100000 := by
  have hse1 : (mapRangeToBuckets 500 600 c9State.bucketWidth
      c9State.minValue).1 = 5 := by decide
  have hse2 : (mapRangeToBuckets 500 600 c9State.bucketWidth
      c9State.minValue).2 = 5 := by decide
  have hab : c9State.activeBuckets = ({5} : Finset ℤ) := rfl
  have hd : c9State.distribution = fun _ => 0 := rfl
  have ha : c9State.alpha = 1000000 := rfl
  have hu : ({5} : Finset ℤ) ∪ Finset.Icc 5 5 = ({5} : Finset ℤ) := by decide
  simp only [calculateCostForShares, hse1, hse2, hab, hd, ha]
  rw [hu, Finset.sum_singleton, Finset.sum_singleton]
  norm_num [Real.log_exp]

/-- C9 counterexample: the scenario's cost is not strictly below 100,000
micro-units — it is exactly 100,000. -/
theorem scenario_cost_counterexample :
    ¬ (calculateCostForShares c9State 500 600 100000 < 100000) := by
  rw [c9_cost_eval]
  omega

/-- C9 (amended): buying 100,000 shares in the scenario market costs a value
strictly greater than 0 and at most 100,000 micro-units; the bound is tight —
the single active bucket carries the entire probability mass, so the price
per share is exactly 1 and the cost is exactly 100,000. -/
theorem scenario_cost_bounds :
    0 < calculateCostForShares c9State 500 600 100000 ∧
    calculateCostForShares c9State 500 600 100000 ≤ 100000 := by
  rw [c9_cost_eval]
  omega

/-! ## C5: price-per-share zero guards -/

/-- Selling zero shares against `wState` pays out zero. -/
theorem wState_payout_zero : calculatePayoutForShares wState 500 600 0 = 0 := by
  have hse1 : (mapRangeToBuckets 500 600 wState.bucketWidth
      wState.minValue).1 = 5 := by decide
  have hse2 : (mapRangeToBuckets 500 600 wState.bucketWidth
      wState.minValue).2 = 5 := by decide
  have hab : wState.activeBuckets = ({5} : Finset ℤ) := rfl
  have hd : wState.distribution = fun bk => if bk = 5 then 1000000 else 0 := rfl
  have ha : wState.alpha = 1000000 := rfl
  simp only [calculatePayoutForShares, hse1, hse2, hab, hd, ha]
  rw [Finset.sum_singleton, Finset.sum_singleton]
  norm_num

/-- C5 (code bug): the buy quote guards the price-per-share division and
returns 0 when the solver yields no shares, but the sell quote divides
`Number(payout) / Number(shares)` unguarded: at `shares = 0` it yields NaN
(payout 0 over 0), not the specified 0. -/
theorem price_per_share_guard_status :
    (getBuyQuote wState 500 600 0 (1 / 20)).pricePerShare = JsNum.num 0 ∧
    (getSellQuote wState 500 600 0 (1 / 20)).pricePerShare = JsNum.nan := by
  constructor
  · show (if (calculateSharesForAmount wState 500 600 0).1 > 0 then
        jsDiv ((calculateSharesForAmount wState 500 600 0).2 : ℝ)
          ((calculateSharesForAmount wState 500 600 0).1 : ℝ)
      else JsNum.num 0) = JsNum.num 0
    rw [sharesForAmount_zero_amount]
    norm_num
  · show jsDiv ((calculatePayoutForShares wState 500 600 0 : ℤ) : ℝ)
      (((0 : ℤ)) : ℝ) = JsNum.nan
    rw [wState_payout_zero]
    simp [jsDiv]

/-! ## C10: unguarded PnL percentage at zero cost basis -/

/-- A finite numerator divided by JavaScript zero, then scaled by 100, is
never finite, and is NaN exactly for a zero numerator. -/
theorem jsDiv_zero_denom (p : ℤ) :
    ¬ (jsMul (jsDiv (p : ℝ) ((0 : ℤ) : ℝ)) 100).isFinite ∧
    (jsMul (jsDiv (p : ℝ) ((0 : ℤ) : ℝ)) 100 = JsNum.nan ↔ p = 0) := by
  rcases lt_trichotomy p 0 with h | h | h
  · have hr : ((p : ℝ) < 0) := by exact_mod_cast h
    have hd0 : jsDiv (p : ℝ) ((0 : ℤ) : ℝ) = JsNum.negInf := by
      rw [show ((0 : ℤ) : ℝ) = 0 from Int.cast_zero]
      unfold jsDiv
      rw [if_neg (by norm_num : ¬ ((0 : ℝ) ≠ 0)),
        if_neg (not_lt.mpr (le_of_lt hr)), if_pos hr]
    have hv : jsMul (jsDiv (p : ℝ) ((0 : ℤ) : ℝ)) 100 = JsNum.negInf := by
      rw [hd0]
      show (if (0 : ℝ) < 100 then JsNum.negInf
        else if (100 : ℝ) < 0 then JsNum.posInf else JsNum.nan) = JsNum.negInf
      rw [if_pos (by norm_num : (0 : ℝ) < 100)]
    rw [hv]
    refine ⟨by simp [JsNum.isFinite], ?_, ?_⟩
    · intro hc
      simp at hc
    · intro hc
      omega
  · subst h
    have hd0 : jsDiv ((0 : ℤ) : ℝ) ((0 : ℤ) : ℝ) = JsNum.nan := by
      rw [show ((0 : ℤ) : ℝ) = 0 from Int.cast_zero]
      unfold jsDiv
      rw [if_neg (by norm_num : ¬ ((0 : ℝ) ≠ 0)),
        if_neg (by norm_num : ¬ ((0 : ℝ) < 0)), if_neg (by norm_num : ¬ ((0 : ℝ) < 0))]
    have hv : jsMul (jsDiv ((0 : ℤ) : ℝ) ((0 : ℤ) : ℝ)) 100 = JsNum.nan := by
      rw [hd0]
      rfl
    rw [hv]
    exact ⟨by simp [JsNum.isFinite], by simp⟩
  · have hr : ((0 : ℝ) < (p : ℝ)) := by exact_mod_cast h
    have hd0 : jsDiv (p : ℝ) ((0 : ℤ) : ℝ) = JsNum.posInf := by
      rw [show ((0 : ℤ) : ℝ) = 0 from Int.cast_zero]
      unfold jsDiv
      rw [if_neg (by norm_num : ¬ ((0 : ℝ) ≠ 0)), if_pos hr]
    have hv : jsMul (jsDiv (p : ℝ) ((0 : ℤ) : ℝ)) 100 = JsNum.posInf := by
      rw [hd0]
      show (if (0 : ℝ) < 100 then JsNum.posInf
        else if (100 : ℝ) < 0 then JsNum.negInf else JsNum.nan) = JsNum.posInf
      rw [if_pos (by norm_num : (0 : ℝ) < 100)]
    rw [hv]
    refine ⟨by simp [JsNum.isFinite], ?_, ?_⟩
    · intro hc
      simp at hc
    · intro hc
      omega

/-- C10: with `costBasis = 0` the unrealized-PnL percentage is never a
finite number — NaN exactly when the current sell payout is 0, and a signed
infinity otherwise — because the division by `costBasis` is unguarded,
unlike `calculateRealizedPnL`, whose percentage falls back to 0 when the
buy total is zero. -/
theorem position_pnl_zero_basis (state : MarketState) (a b n : ℤ) :
    ¬ ((calculatePositionPnL state a b n 0).unrealizedPnLPercent).isFinite ∧
    ((calculatePositionPnL state a b n 0).unrealizedPnLPercent = JsNum.nan ↔
      (getSellQuote state a b n 0).payout = 0) ∧
    (∀ trades : List Trade, (calculateRealizedPnL trades).totalBought = 0 →
      (calculateRealizedPnL trades).realizedPnLPercent = 0) := by
  have hP : (calculatePositionPnL state a b n 0).unrealizedPnLPercent =
      jsMul (jsDiv ((calculatePayoutForShares state a b n : ℤ) : ℝ)
        ((0 : ℤ) : ℝ)) 100 := by
    show jsMul (jsDiv ((calculatePayoutForShares state a b n - 0 : ℤ) : ℝ)
      ((0 : ℤ) : ℝ)) 100 = _
    rw [sub_zero]
  have hp := jsDiv_zero_denom (calculatePayoutForShares state a b n)
  refine ⟨by rw [hP]; exact hp.1, by rw [hP]; exact hp.2, ?_⟩
  intro trades h
  simp only [calculateRealizedPnL] at h ⊢
  rw [if_neg (by omega)]

/-- Witness for `position_pnl_zero_basis`: a zero-share position with zero
cost basis yields a NaN percentage, while the realized-PnL percentage of an
empty trade list is 0. -/
theorem position_pnl_zero_basis_witness :
    (calculatePositionPnL wState 500 600 0 0).unrealizedPnLPercent = JsNum.nan ∧
    (calculateRealizedPnL []).realizedPnLPercent = 0 :=
  ⟨(position_pnl_zero_basis wState 500 600 0).2.1.mpr wState_payout_zero,
   (position_pnl_zero_basis wState 500 600 0).2.2 [] rfl⟩

/-! ## C4: round-trip payout versus cost -/

/-- Cauchy–Schwarz step for the LMSR spread: when `w` is the pointwise
average of the exponent families `u` and `v`, the squared sum of `exp ∘ w`
is bounded by the product of the sums of `exp ∘ u` and `exp ∘ v`. -/
theorem sum_exp_sq_le (A : Finset ℤ) (u v w : ℤ → ℝ)
    (h : ∀ bk ∈ A, u bk + v bk = 2 * w bk) :
    (∑ bk ∈ A, Real.exp (w bk)) ^ 2 ≤
      (∑ bk ∈ A, Real.exp (u bk)) * ∑ bk ∈ A, Real.exp (v bk) := by
  have h1 : (∑ bk ∈ A, Real.exp (w bk)) =
      ∑ bk ∈ A, Real.exp (u bk / 2) * Real.exp (v bk / 2) := by
    refine Finset.sum_congr rfl fun bk hbk => ?_
    rw [← Real.exp_add]
    congr 1
    have := h bk hbk
    linarith
  have h2 : (∑ bk ∈ A, Real.exp (u bk)) =
      ∑ bk ∈ A, Real.exp (u bk / 2) ^ 2 := by
    refine Finset.sum_congr rfl fun bk _ => ?_
    rw [sq, ← Real.exp_add, add_halves]
  have h3 : (∑ bk ∈ A, Real.exp (v bk)) =
      ∑ bk ∈ A, Real.exp (v bk / 2) ^ 2 := by
    refine Finset.sum_congr rfl fun bk _ => ?_
    rw [sq, ← Real.exp_add, add_halves]
  rw [h1, h2, h3]
  exact Finset.sum_mul_sq_le_sq_mul_sq A _ _

/-- C4 (amended): provided every active bucket keeps a strictly positive
share count after the sale — each in-range active bucket holds strictly more
than `n` shares and each out-of-range active bucket holds a positive count —
selling `n` shares pays out at most the cost of buying `n` shares on the
same unchanged state. -/
theorem sell_payout_le_buy_cost (state : MarketState) (a b n : ℤ)
    (hα : 0 < state.alpha) (hne : state.activeBuckets.Nonempty)
    (hin : ∀ bk ∈ state.activeBuckets,
      (mapRangeToBuckets a b state.bucketWidth state.minValue).1 ≤ bk ∧
        bk ≤ (mapRangeToBuckets a b state.bucketWidth state.minValue).2 →
      n < state.distribution bk)
    (hout : ∀ bk ∈ state.activeBuckets,
      ¬((mapRangeToBuckets a b state.bucketWidth state.minValue).1 ≤ bk ∧
        bk ≤ (mapRangeToBuckets a b state.bucketWidth state.minValue).2) →
      0 < state.distribution bk) :
    calculatePayoutForShares state a b n ≤ calculateCostForShares state a b n := by
  simp only [calculatePayoutForShares, calculateCostForShares]
  set se := mapRangeToBuckets a b state.bucketWidth state.minValue with hsedef
  have hαR : (0 : ℝ) < (state.alpha : ℝ) := by exact_mod_cast hα
  have hFs : (∑ bk ∈ state.activeBuckets,
      if 0 < (if se.1 ≤ bk ∧ bk ≤ se.2
          then max 0 (state.distribution bk - n) else state.distribution bk)
      then Real.exp
        (((if se.1 ≤ bk ∧ bk ≤ se.2
          then max 0 (state.distribution bk - n) else state.distribution bk : ℤ) : ℝ) /
          (state.alpha : ℝ))
      else 0) =
      ∑ bk ∈ state.activeBuckets,
        Real.exp (((if se.1 ≤ bk ∧ bk ≤ se.2 then state.distribution bk - n
          else state.distribution bk : ℤ) : ℝ) / (state.alpha : ℝ)) := by
    refine Finset.sum_congr rfl fun bk hbk => ?_
    by_cases hc : se.1 ≤ bk ∧ bk ≤ se.2
    · have hq := hin bk hbk hc
      rw [if_pos hc, if_pos hc,
        max_eq_right (by omega : (0 : ℤ) ≤ state.distribution bk - n),
        if_pos (by omega : (0 : ℤ) < state.distribution bk - n)]
    · have hq := hout bk hbk hc
      rw [if_neg hc, if_neg hc, if_pos hq]
  rw [hFs]
  have hCS := sum_exp_sq_le state.activeBuckets
    (fun bk => ((if se.1 ≤ bk ∧ bk ≤ se.2 then state.distribution bk + n
      else state.distribution bk : ℤ) : ℝ) / (state.alpha : ℝ))
    (fun bk => ((if se.1 ≤ bk ∧ bk ≤ se.2 then state.distribution bk - n
      else state.distribution bk : ℤ) : ℝ) / (state.alpha : ℝ))
    (fun bk => (state.distribution bk : ℝ) / (state.alpha : ℝ))
    (fun bk _ => by
      by_cases hc : se.1 ≤ bk ∧ bk ≤ se.2
      · simp only [if_pos hc]
        push_cast
        ring
      · simp only [if_neg hc]
        ring)
  simp only [] at hCS
  have hI : (0 : ℝ) < ∑ bk ∈ state.activeBuckets,
      Real.exp ((state.distribution bk : ℝ) / (state.alpha : ℝ)) :=
    Finset.sum_pos (fun bk _ => Real.exp_pos _) hne
  have hFspos : (0 : ℝ) < ∑ bk ∈ state.activeBuckets,
      Real.exp (((if se.1 ≤ bk ∧ bk ≤ se.2 then state.distribution bk - n
        else state.distribution bk : ℤ) : ℝ) / (state.alpha : ℝ)) :=
    Finset.sum_pos (fun bk _ => Real.exp_pos _) hne
  have hsub : (∑ bk ∈ state.activeBuckets,
      Real.exp (((if se.1 ≤ bk ∧ bk ≤ se.2 then state.distribution bk + n
        else state.distribution bk : ℤ) : ℝ) / (state.alpha : ℝ))) ≤
      ∑ bk ∈ state.activeBuckets ∪ Finset.Icc se.1 se.2,
        Real.exp (((if se.1 ≤ bk ∧ bk ≤ se.2 then state.distribution bk + n
          else state.distribution bk : ℤ) : ℝ) / (state.alpha : ℝ)) :=
    Finset.sum_le_sum_of_subset_of_nonneg Finset.subset_union_left
      (fun _ _ _ => le_of_lt (Real.exp_pos _))
  have hFb : (0 : ℝ) < ∑ bk ∈ state.activeBuckets ∪ Finset.Icc se.1 se.2,
      Real.exp (((if se.1 ≤ bk ∧ bk ≤ se.2 then state.distribution bk + n
        else state.distribution bk : ℤ) : ℝ) / (state.alpha : ℝ)) :=
    lt_of_lt_of_le (Finset.sum_pos (fun bk _ => Real.exp_pos _) hne) hsub
  have hmain : (∑ bk ∈ state.activeBuckets,
      Real.exp ((state.distribution bk : ℝ) / (state.alpha : ℝ))) ^ 2 ≤
      (∑ bk ∈ state.activeBuckets ∪ Finset.Icc se.1 se.2,
        Real.exp (((if se.1 ≤ bk ∧ bk ≤ se.2 then state.distribution bk + n
          else state.distribution bk : ℤ) : ℝ) / (state.alpha : ℝ))) *
      ∑ bk ∈ state.activeBuckets,
        Real.exp (((if se.1 ≤ bk ∧ bk ≤ se.2 then state.distribution bk - n
          else state.distribution bk : ℤ) : ℝ) / (state.alpha : ℝ)) :=
    le_trans hCS (mul_le_mul_of_nonneg_right hsub (le_of_lt hFspos))
  have hlogsq : Real.log ((∑ bk ∈ state.activeBuckets,
        Real.exp ((state.distribution bk : ℝ) / (state.alpha : ℝ))) ^ 2) ≤
      Real.log ((∑ bk ∈ state.activeBuckets ∪ Finset.Icc se.1 se.2,
        Real.exp (((if se.1 ≤ bk ∧ bk ≤ se.2 then state.distribution bk + n
          else state.distribution bk : ℤ) : ℝ) / (state.alpha : ℝ))) *
      ∑ bk ∈ state.activeBuckets,
        Real.exp (((if se.1 ≤ bk ∧ bk ≤ se.2 then state.distribution bk - n
          else state.distribution bk : ℤ) : ℝ) / (state.alpha : ℝ))) :=
    Real.log_le_log (by positivity) hmain
  rw [Real.log_pow, Real.log_mul (ne_of_gt hFb) (ne_of_gt hFspos),
    Nat.cast_ofNat] at hlogsq
  apply lmsrRoundMono
  apply mul_le_mul_of_nonneg_left _ (le_of_lt hαR)
  linarith

/-- Witness for `sell_payout_le_buy_cost`: both active buckets stay strictly
positive after selling 1,000,000 micro-shares of bucket 0. -/
theorem sell_payout_le_buy_cost_witness :
    calculatePayoutForShares roundTripWState 0 100 1000000 ≤
      calculateCostForShares roundTripWState 0 100 1000000 :=
  sell_payout_le_buy_cost roundTripWState 0 100 1000000 (by decide)
    ⟨0, by decide⟩ (by decide) (by decide)

/-- Key numeric inequality for the round-trip counterexample: with
`t = exp(10⁻⁶)` the real payout `10⁶ (ln(1+t) − ln t)` exceeds the real cost
`10⁶ (ln(e+t) − ln(1+t))` by at least 1, so the rounded integers are
strictly ordered. -/
theorem round_trip_gap :
    round ((1000000 : ℝ) * (Real.log (Real.exp 1 + Real.exp (1 / 1000000)) -
      Real.log (1 + Real.exp (1 / 1000000)))) <
    round ((1000000 : ℝ) * (Real.log (1 + Real.exp (1 / 1000000)) -
      Real.log (Real.exp (1 / 1000000)))) := by
  set t := Real.exp (1 / 1000000) with ht
  have ht1 : (1 : ℝ) ≤ t := Real.one_le_exp (by norm_num)
  have htpos : (0 : ℝ) < t := Real.exp_pos _
  have hepos : (0 : ℝ) < Real.exp 1 := Real.exp_pos _
  have hub : t ≤ 1000000 / 999999 := by
    have h1 : (1 : ℝ) - 1 / 1000000 ≤ Real.exp (-(1 / 1000000)) := by
      have := Real.add_one_le_exp (-(1 / 1000000))
      linarith
    have h2 : t * Real.exp (-(1 / 1000000)) = 1 := by
      rw [ht, ← Real.exp_add]
      norm_num
    nlinarith [Real.exp_pos (-(1 / 1000000))]
  have he : Real.exp 1 < 2.7182818286 := Real.exp_one_lt_d9
  have hcore : (Real.exp 1 + t) * t ^ 2 ≤ (1 + t) ^ 2 := by
    nlinarith [ht1, hub, he, htpos]
  have hlog2 : Real.log ((Real.exp 1 + t) * t ^ 2) ≤ Real.log ((1 + t) ^ 2) :=
    Real.log_le_log (by positivity) hcore
  rw [Real.log_mul (by positivity) (by positivity), Real.log_pow, Real.log_pow,
    Nat.cast_ofNat] at hlog2
  have hlt : Real.log t = 1 / 1000000 := by rw [ht, Real.log_exp]
  apply lmsrRoundLt
  rw [hlt]
  rw [hlt] at hlog2
  linarith

/-- C4 counterexample: in `roundTripCexState` (active bucket 0 empty, active
bucket 1 holding one micro-share), selling 1,000,000 shares of bucket 0
clamps the bucket at zero and drops it from the final sum, so the payout
strictly exceeds the cost of buying the same 1,000,000 shares on the same
unchanged state. -/
theorem round_trip_counterexample :
    calculateCostForShares roundTripCexState 0 100 1000000 <
      calculatePayoutForShares roundTripCexState 0 100 1000000 := by
  have hse1 : (mapRangeToBuckets 0 100 roundTripCexState.bucketWidth
      roundTripCexState.minValue).1 = 0 := by decide
  have hse2 : (mapRangeToBuckets 0 100 roundTripCexState.bucketWidth
      roundTripCexState.minValue).2 = 0 := by decide
  have hab : roundTripCexState.activeBuckets = ({0, 1} : Finset ℤ) := rfl
  have hd : roundTripCexState.distribution = fun bk => if bk = 1 then 1 else 0 := rfl
  have ha : roundTripCexState.alpha = 1000000 := rfl
  have hu : ({0, 1} : Finset ℤ) ∪ Finset.Icc 0 0 = ({0, 1} : Finset ℤ) := by decide
  simp only [calculateCostForShares, calculatePayoutForShares, hse1, hse2, hab,
    hd, ha]
  rw [hu]
  simp only [Finset.sum_pair (show (0 : ℤ) ≠ 1 by norm_num)]
  norm_num [max_def]
  have h := round_trip_gap
  rw [Real.log_exp] at h
  exact h
